import Mathlib

/-!
Verification of the doc-translator core against its natural-language
specification.

The repository is a browser-based document translator.  The code relevant to
the claims lives in `src/lib/translator.ts` (translation client and batch
translator), the document processor module (`translateDocx`,
`translateMarkdown`, `translatePdfPages`), the document parser
(`parseDocument`, `getFileType`, `parseDocx`, `parsePdf`) and the page
component's `downloadFile` helper.

Modelling conventions of the shallow embedding:

* The remote chat-completion service is an oracle `String → Option String`:
  `some s` means the request succeeded and streamed the full text `s`,
  `none` means the request threw (`TranslationRequestError`).
* A thrown JS exception is `none` / `Except.error`.
* `translateText` returns its result together with the number of remote
  requests it issued (0 on the blank fast path, 1 otherwise).
* The log and progress callbacks are modelled by collecting, in emission
  order, the events the code would pass to them.  Wall-clock durations are
  modelled only by whether a duration argument is supplied.
* A DOCX document body is the list of its `w:p` paragraph elements, each
  paragraph being the ordered list of the text contents of its `w:t` nodes.
  DOM traversal (`getElementsByTagName`) is deterministic and the document
  is not mutated between the two passes, so the pass-1 mark
  `_pendingTranslation` on a node is equivalent to its original text being
  non-blank.
-/

/-- Severity of a log callback event, as in the `onLog` type of
`translator.ts`. -/
inductive LogKind where
  | info | success | error | warning
deriving DecidableEq, Repr

/-- One `onLog` invocation made by `translateBatch`: the 1-based chunk index
and total that appear in the message, the severity, and whether a duration
argument was supplied. -/
structure LogEvent where
  chunkIdx : Nat
  total : Nat
  kind : LogKind
  hasDuration : Bool
deriving DecidableEq, Repr

/-- The blank test `!text || !text.trim()` of `translateText`: the string is
empty or trims to the empty string, i.e. every character is whitespace.
(Stated over the character list because Lean's `String.trim` is defined by
well-founded recursion on byte positions and does not evaluate in the
kernel.) -/
def isBlankStr (s : String) : Bool := s.data.all Char.isWhitespace

/-- `translateText` from `src/lib/translator.ts`.  `!text || !text.trim()`
short-circuits to the input with no remote request; otherwise one request is
made whose outcome the oracle decides.  Returns (result-or-throw, number of
remote requests). -/
def translateText (oracle : String → Option String) (text : String) :
    Option String × Nat :=
  if isBlankStr text then (some text, 0)
  else (oracle text, 1)

/-- Everything `translateBatch` hands to its callers and callbacks: the
`results` array, the `(completed, total)` arguments of each
`onBatchProgress` call, and the `onLog` events, each in emission order. -/
structure BatchOutcome where
  results : List String
  progressCalls : List (Nat × Nat)
  logs : List LogEvent
deriving DecidableEq, Repr

/-- The body of the `for` loop of `translateBatch` in
`src/lib/translator.ts`, processing the chunks from 0-based index `i` on.
Per chunk: an info log, then the `translateText` call; on success the
translated text is pushed, a success log (with duration) is emitted and
`onBatchProgress(i + 1, total)` is called; on a thrown error an error log
(with duration) is emitted and the original chunk is pushed, with no
progress call. -/
def translateBatchAux (oracle : String → Option String) (total : Nat) :
    Nat → List String → BatchOutcome
  | _, [] => ⟨[], [], []⟩
  | i, t :: rest =>
    let tail := translateBatchAux oracle total (i + 1) rest
    match (translateText oracle t).1 with
    | some tr =>
        ⟨tr :: tail.results, (i + 1, total) :: tail.progressCalls,
          ⟨i + 1, total, .info, false⟩ :: ⟨i + 1, total, .success, true⟩ :: tail.logs⟩
    | none =>
        ⟨t :: tail.results, tail.progressCalls,
          ⟨i + 1, total, .info, false⟩ :: ⟨i + 1, total, .error, true⟩ :: tail.logs⟩

/-- `translateBatch` from `src/lib/translator.ts`. -/
def translateBatch (oracle : String → Option String) (texts : List String) :
    BatchOutcome :=
  translateBatchAux oracle texts.length 0 texts

/-- What one chunk resolves to: its translation on success, the original
chunk on failure (the catch branch's `results.push(texts[i])`). -/
def resolveChunk (oracle : String → Option String) (t : String) : String :=
  match (translateText oracle t).1 with
  | some tr => tr
  | none => t

/-- An oracle for a remote service whose every request throws. -/
def failOracle : String → Option String := fun _ => none

/-- An oracle for a remote service that echoes its input (identity
translation). -/
def echoOracle : String → Option String := fun s => some s

/-- An oracle for a remote service that uppercases its input. -/
def upperOracle : String → Option String :=
  fun s => some (s.data.map Char.toUpper).asString

theorem translateBatchAux_results (oracle : String → Option String)
    (total : Nat) (texts : List String) :
    ∀ i : Nat, (translateBatchAux oracle total i texts).results
      = texts.map (resolveChunk oracle) := by
  induction texts with
  | nil => intro i; rfl
  | cons t rest ih =>
    intro i
    cases h : (translateText oracle t).1 with
    | some tr => simp [translateBatchAux, resolveChunk, h, ih]
    | none => simp [translateBatchAux, resolveChunk, h, ih]

theorem translateBatch_results (oracle : String → Option String)
    (texts : List String) :
    (translateBatch oracle texts).results = texts.map (resolveChunk oracle) :=
  translateBatchAux_results oracle texts.length texts 0

/-- C1: for every list of input chunks and every oracle (config/outcome
pattern), `translateBatch` returns a result list of the same length as the
input, and the result at every position is the resolution of the input chunk
at that same position — its translation on success, the original chunk on
failure — however many chunks fail. -/
theorem translateBatch_length_and_positions (oracle : String → Option String)
    (texts : List String) :
    (translateBatch oracle texts).results.length = texts.length ∧
    ∀ i : Nat, (translateBatch oracle texts).results[i]?
      = (texts[i]?).map (resolveChunk oracle) := by
  refine ⟨?_, ?_⟩
  · rw [translateBatch_results]; exact List.length_map texts _
  · intro i
    rw [translateBatch_results]
    exact List.getElem?_map _ texts i

theorem translateBatchAux_error_log (oracle : String → Option String)
    (total : Nat) :
    ∀ (texts : List String) (k i : Nat) (t : String),
      texts[i]? = some t → (translateText oracle t).1 = none →
      (⟨k + i + 1, total, LogKind.error, true⟩ : LogEvent)
        ∈ (translateBatchAux oracle total k texts).logs := by
  intro texts
  induction texts with
  | nil => intro k i t ht; simp at ht
  | cons u rest ih =>
    intro k i t ht hfail
    cases i with
    | zero =>
      simp at ht
      subst ht
      simp [translateBatchAux, hfail]
    | succ j =>
      simp at ht
      have := ih (k + 1) j t ht hfail
      have harith : k + 1 + j + 1 = k + (j + 1) + 1 := by omega
      rw [harith] at this
      cases h : (translateText oracle u).1 with
      | some tr => simp [translateBatchAux, h]; tauto
      | none => simp [translateBatchAux, h]; tauto

/-- C2: if the translation call for chunk `i` throws, `translateBatch` puts
the original chunk `i`, unmodified, at position `i` of the results, emits an
error log for that chunk (with a duration argument), and the batch is not
aborted: the result list still covers every input position, each later
position resolved from its own chunk. -/
theorem translateBatch_failure_fallback (oracle : String → Option String)
    (texts : List String) (i : Nat) (t : String)
    (ht : texts[i]? = some t) (hfail : (translateText oracle t).1 = none) :
    (translateBatch oracle texts).results[i]? = some t ∧
    (⟨i + 1, texts.length, LogKind.error, true⟩ : LogEvent)
      ∈ (translateBatch oracle texts).logs ∧
    (translateBatch oracle texts).results.length = texts.length ∧
    ∀ j : Nat, (translateBatch oracle texts).results[j]?
      = (texts[j]?).map (resolveChunk oracle) := by
  refine ⟨?_, ?_, ?_, ?_⟩
  · rw [translateBatch_results, List.getElem?_map _ texts i, ht]
    simp [resolveChunk, hfail]
  · have := translateBatchAux_error_log oracle texts.length texts 0 i t ht hfail
    simpa [translateBatch] using this
  · rw [translateBatch_results]; exact List.length_map texts _
  · intro j
    rw [translateBatch_results]
    exact List.getElem?_map _ texts j

/-- Witness for C2 at a concrete input: a one-chunk batch whose single
remote call throws. -/
theorem translateBatch_failure_fallback_instance :
    (translateBatch failOracle ["hi"]).results[0]? = some "hi" ∧
    (⟨1, 1, LogKind.error, true⟩ : LogEvent)
      ∈ (translateBatch failOracle ["hi"]).logs ∧
    (translateBatch failOracle ["hi"]).results.length = 1 ∧
    ∀ j : Nat, (translateBatch failOracle ["hi"]).results[j]?
      = ((["hi"] : List String)[j]?).map (resolveChunk failOracle) :=
  translateBatch_failure_fallback failOracle ["hi"] 0 "hi" (by decide) (by decide)

/-- C3 counterexample: a one-chunk batch whose single translation call
throws makes zero `onBatchProgress` calls, not `1 = len(chunks)` — the catch
branch of `translateBatch` pushes the fallback without calling
`onBatchProgress`. -/
theorem translateBatch_progress_count_cex :
    ¬ ((translateBatch failOracle ["A"]).progressCalls.length
        = (["A"] : List String).length) := by decide

theorem translateBatchAux_progress (oracle : String → Option String)
    (total : Nat) :
    ∀ (texts : List String) (k : Nat),
      (translateBatchAux oracle total k texts).progressCalls
        = (List.enumFrom k texts).filterMap
            (fun p => if ((translateText oracle p.2).1).isSome
                      then some (p.1 + 1, total) else none) := by
  intro texts
  induction texts with
  | nil => intro k; rfl
  | cons t rest ih =>
    intro k
    cases h : (translateText oracle t).1 with
    | some tr => simp [translateBatchAux, h, List.enumFrom, ih]
    | none => simp [translateBatchAux, h, List.enumFrom, ih]

theorem enumFrom_filterMap_progress (oracle : String → Option String)
    (total : Nat) :
    ∀ (texts : List String) (k : Nat),
      (∀ t ∈ texts, ((translateText oracle t).1).isSome) →
      (List.enumFrom k texts).filterMap
          (fun p => if ((translateText oracle p.2).1).isSome
                    then some (p.1 + 1, total) else none)
        = (List.range texts.length).map (fun i => (k + i + 1, total)) := by
  intro texts
  induction texts with
  | nil => intro k _; rfl
  | cons t rest ih =>
    intro k hall
    have hhd : ((translateText oracle t).1).isSome := hall t (by simp)
    have htl : ∀ u ∈ rest, ((translateText oracle u).1).isSome :=
      fun u hu => hall u (by simp [hu])
    simp only [List.enumFrom, List.filterMap, hhd, if_pos, List.length_cons,
      List.range_succ_eq_map, List.map_cons, List.map_map]
    rw [ih (k + 1) htl]
    congr 1
    apply List.map_congr_left
    intro a _
    simp only [Function.comp_apply, Prod.mk.injEq, and_true]
    omega

/-- C3 amended: `onBatchProgress` is invoked exactly once per successfully
translated chunk, after it resolves, with arguments `(index + 1, total)`;
chunks that fail and fall back trigger no call.  In particular, when every
chunk resolves successfully it is invoked exactly `len(chunks)` times, with
the completed count increasing by 1 each call and the final call reporting
the full count. -/
theorem translateBatch_progress_characterization
    (oracle : String → Option String) (texts : List String) :
    (translateBatch oracle texts).progressCalls
      = (List.enumFrom 0 texts).filterMap
          (fun p => if ((translateText oracle p.2).1).isSome
                    then some (p.1 + 1, texts.length) else none) ∧
    ((∀ t ∈ texts, ((translateText oracle t).1).isSome) →
      (translateBatch oracle texts).progressCalls
        = (List.range texts.length).map (fun i => (i + 1, texts.length))) := by
  constructor
  · exact translateBatchAux_progress oracle texts.length texts 0
  · intro hall
    refine (translateBatchAux_progress oracle texts.length texts 0).trans ?_
    refine (enumFrom_filterMap_progress oracle texts.length texts 0 hall).trans ?_
    apply List.map_congr_left
    intro a _
    simp

/-- Witness for C3's amended statement at a concrete input: a two-chunk
batch in which every translation succeeds reports (1, 2) then (2, 2). -/
theorem translateBatch_progress_characterization_instance :
    (translateBatch echoOracle ["a", "b"]).progressCalls
      = (List.range 2).map (fun i => (i + 1, 2)) :=
  (translateBatch_progress_characterization echoOracle ["a", "b"]).2 (by decide)

/-- C6: for every input text that is empty or consists only of whitespace
characters, `translateText` returns that input unchanged and issues zero
remote requests. -/
theorem translateText_blank_no_call (oracle : String → Option String)
    (text : String) (h : ∀ c ∈ text.data, c.isWhitespace) :
    translateText oracle text = (some text, 0) := by
  have hb : isBlankStr text = true := by
    simpa [isBlankStr, List.all_eq_true] using h
  simp [translateText, hb]

/-- Witness for C6 at a concrete input: two spaces. -/
theorem translateText_blank_no_call_instance :
    translateText failOracle "  " = (some "  ", 0) :=
  translateText_blank_no_call failOracle "  " (by decide)

/-- Pass 1 of `translateDocx` over one `w:p` paragraph: collect, in node
order, every `w:t` text content with `text.trim().length > 0` (equivalently,
not blank); these are exactly the nodes marked `_pendingTranslation`. -/
def extractPara (nodes : List String) : List String :=
  nodes.filter (fun t => !isBlankStr t)

/-- Pass 1 of `translateDocx` over the whole body: the outer
`paragraphs.forEach` with the inner `w:t` loop, pushing in traversal
order. -/
def extractDoc (paras : List (List String)) : List String :=
  (paras.map extractPara).flatten

/-- The write-back rule of pass 2: `if (translatedTexts[tIndex])` replaces
the node text only when the translated string is truthy, i.e. non-empty. -/
def chooseText (original translated : String) : String :=
  if translated = "" then original else translated

/-- Pass 2 of `translateDocx` over one paragraph, threading the global
`tIndex` counter `k`: a marked node (non-blank original text) takes
`translatedTexts[tIndex]` when that entry exists and is non-empty, keeps its
text otherwise, and `tIndex` advances either way; unmarked nodes are left
alone and do not advance `tIndex`. -/
def writeBackPara (tr : List String) : List String → Nat → List String × Nat
  | [], k => ([], k)
  | t :: rest, k =>
    if isBlankStr t then
      let next := writeBackPara tr rest k
      (t :: next.1, next.2)
    else
      let newText :=
        match tr[k]? with
        | some s => if s = "" then t else s
        | none => t
      let next := writeBackPara tr rest (k + 1)
      (newText :: next.1, next.2)

/-- Pass 2 of `translateDocx` over the whole body, threading `tIndex`
across paragraphs. -/
def writeBackDoc (tr : List String) :
    List (List String) → Nat → List (List String) × Nat
  | [], k => ([], k)
  | p :: ps, k =>
    let first := writeBackPara tr p k
    let next := writeBackDoc tr ps first.2
    (first.1 :: next.1, next.2)

/-- Positional description of pass 2 used in the theorems: walk the node
list once, give each non-blank node the next entry of `vs` (keeping its own
text once `vs` is exhausted) and leave blank nodes alone. -/
def mergeBack : List String → List String → List String
  | [], _ => []
  | t :: rest, vs =>
    if isBlankStr t then t :: mergeBack rest vs
    else vs.headD t :: mergeBack rest vs.tail

/-- `translateDocx` from the document-processor module, on the text level:
extract the non-blank `w:t` contents, return the document untouched when
there are none, otherwise batch-translate them and write the results back in
traversal order. -/
def translateDocx (oracle : String → Option String)
    (doc : List (List String)) : List (List String) :=
  let rawTexts := extractDoc doc
  if rawTexts.length = 0 then doc
  else (writeBackDoc (translateBatch oracle rawTexts).results doc 0).1

theorem mergeBack_nil : ∀ l : List String, mergeBack l [] = l := by
  intro l
  induction l with
  | nil => rfl
  | cons t rest ih =>
    by_cases hb : isBlankStr t <;> simp [mergeBack, hb, ih]

theorem writeBackPara_snd (tr : List String) :
    ∀ (nodes : List String) (k : Nat),
      (writeBackPara tr nodes k).2 = k + (extractPara nodes).length := by
  intro nodes
  induction nodes with
  | nil => intro k; simp [writeBackPara, extractPara]
  | cons t rest ih =>
    intro k
    by_cases hb : isBlankStr t
    · simp [writeBackPara, extractPara, hb, ih k]
    · simp [writeBackPara, extractPara, hb, ih (k + 1)]
      omega

theorem writeBackPara_fst (tr : List String) :
    ∀ (nodes : List String) (k : Nat),
      (writeBackPara tr nodes k).1
        = mergeBack nodes
            (List.zipWith chooseText (extractPara nodes) (tr.drop k)) := by
  intro nodes
  induction nodes with
  | nil => intro k; rfl
  | cons t rest ih =>
    intro k
    by_cases hb : isBlankStr t
    · simp [writeBackPara, mergeBack, extractPara, hb, ih k]
    · cases hd : tr.drop k with
      | nil =>
        have hnone : tr[k]? = none := by
          have h0 : (tr.drop k)[0]? = tr[k + 0]? := List.getElem?_drop tr k 0
          rw [hd] at h0
          simpa using h0.symm
        have hd' : tr.drop (k + 1) = [] := by
          have := List.tail_drop tr k
          rw [hd] at this
          exact this.symm
        simp [writeBackPara, mergeBack, extractPara, hb, hnone, ih (k + 1),
          hd, hd', mergeBack_nil]
      | cons s l' =>
        have hsome : tr[k]? = some s := by
          have h0 : (tr.drop k)[0]? = tr[k + 0]? := List.getElem?_drop tr k 0
          rw [hd] at h0
          simpa using h0.symm
        have hl' : tr.drop (k + 1) = l' := by
          have := List.tail_drop tr k
          rw [hd] at this
          exact this.symm
        simp [writeBackPara, mergeBack, extractPara, hb, hsome, ih (k + 1),
          hd, hl', chooseText]

theorem extractDoc_flatten : ∀ paras : List (List String),
    extractDoc paras = extractPara paras.flatten := by
  intro paras
  induction paras with
  | nil => rfl
  | cons p ps ih =>
    simp only [extractDoc, List.map_cons, List.flatten_cons] at *
    rw [ih]
    simp [extractPara, List.filter_append]

theorem writeBackDoc_snd (tr : List String) :
    ∀ (paras : List (List String)) (k : Nat),
      (writeBackDoc tr paras k).2 = k + (extractDoc paras).length := by
  intro paras
  induction paras with
  | nil => intro k; simp [writeBackDoc, extractDoc]
  | cons p ps ih =>
    intro k
    simp only [writeBackDoc, ih, writeBackPara_snd, extractDoc, List.map_cons,
      List.flatten_cons, List.length_append]
    omega

theorem mergeBack_append :
    ∀ (a : List String) (b vs : List String),
      mergeBack (a ++ b) (List.zipWith chooseText (extractPara (a ++ b)) vs)
        = mergeBack a (List.zipWith chooseText (extractPara a) vs)
          ++ mergeBack b (List.zipWith chooseText (extractPara b)
              (vs.drop (extractPara a).length)) := by
  intro a
  induction a with
  | nil => intro b vs; simp [extractPara, mergeBack]
  | cons t a' ih =>
    intro b vs
    by_cases hb : isBlankStr t
    · simp only [List.cons_append]
      rw [show extractPara (t :: (a' ++ b)) = extractPara (a' ++ b) by
            simp [extractPara, hb],
          show extractPara (t :: a') = extractPara a' by simp [extractPara, hb]]
      simp only [mergeBack, hb, if_pos]
      rw [ih b vs]
      simp
    · simp only [List.cons_append]
      rw [show extractPara (t :: (a' ++ b)) = t :: extractPara (a' ++ b) by
            simp [extractPara, hb],
          show extractPara (t :: a') = t :: extractPara a' by
            simp [extractPara, hb]]
      cases vs with
      | nil =>
        simp only [List.zipWith_nil_right, List.cons_append, mergeBack, hb,
          if_neg, Bool.not_eq_true, List.headD_nil, List.tail_nil,
          List.drop_nil, mergeBack_nil]
      | cons v vtail =>
        simp only [List.zipWith_cons_cons, List.cons_append, mergeBack, hb,
          Bool.not_eq_true, if_neg, List.headD_cons, List.tail_cons,
          List.length_cons, List.drop_succ_cons]
        rw [ih b vtail]

theorem writeBackDoc_fst (tr : List String) :
    ∀ (paras : List (List String)) (k : Nat),
      (writeBackDoc tr paras k).1.flatten
        = mergeBack paras.flatten
            (List.zipWith chooseText (extractDoc paras) (tr.drop k)) := by
  intro paras
  induction paras with
  | nil => intro k; rfl
  | cons p ps ih =>
    intro k
    simp only [writeBackDoc, List.flatten_cons, writeBackPara_fst,
      writeBackPara_snd, ih, extractDoc_flatten]
    rw [mergeBack_append p ps.flatten (tr.drop k), List.drop_drop,
      Nat.add_comm k (extractPara p).length]

theorem zipWith_chooseText_of_ne_empty :
    ∀ (ext res : List String), res.length = ext.length →
      (∀ s ∈ res, s ≠ "") → List.zipWith chooseText ext res = res := by
  intro ext
  induction ext with
  | nil =>
    intro res hlen _
    cases res with
    | nil => rfl
    | cons s res' => simp at hlen
  | cons o ext' ih =>
    intro res hlen hne
    cases res with
    | nil => rfl
    | cons s res' =>
      simp only [List.zipWith_cons_cons]
      have hs : s ≠ "" := hne s (by simp)
      rw [show chooseText o s = s by simp [chooseText, hs],
        ih res' (by simpa using hlen) (fun u hu => hne u (by simp [hu]))]

/-- C4: the two passes of `translateDocx` visit the text nodes in the same
order, so the extracted non-blank sequence and the translated result
sequence have equal length, and the document written back is the original
with its k-th marked node given the k-th translated result (via the
write-back rule) — position is the only correlation key.  In particular,
whenever every translated result is non-empty, the k-th marked node's final
text is exactly the k-th translated string. -/
theorem translateDocx_positional_alignment (oracle : String → Option String)
    (doc : List (List String)) :
    (translateBatch oracle (extractDoc doc)).results.length
        = (extractDoc doc).length ∧
    (translateDocx oracle doc).flatten
      = mergeBack doc.flatten
          (List.zipWith chooseText (extractDoc doc)
            (translateBatch oracle (extractDoc doc)).results) ∧
    ((∀ s ∈ (translateBatch oracle (extractDoc doc)).results, s ≠ "") →
      (translateDocx oracle doc).flatten
        = mergeBack doc.flatten
            (translateBatch oracle (extractDoc doc)).results) := by
  have hlen : (translateBatch oracle (extractDoc doc)).results.length
      = (extractDoc doc).length := by
    rw [translateBatch_results]; exact List.length_map _ _
  have hmain : (translateDocx oracle doc).flatten
      = mergeBack doc.flatten
          (List.zipWith chooseText (extractDoc doc)
            (translateBatch oracle (extractDoc doc)).results) := by
    by_cases h0 : (extractDoc doc).length = 0
    · have hext : extractDoc doc = [] := List.length_eq_zero.mp h0
      simp [translateDocx, h0, hext, mergeBack_nil]
    · have := writeBackDoc_fst (translateBatch oracle (extractDoc doc)).results
        doc 0
      rw [List.drop_zero] at this
      simpa [translateDocx, h0] using this
  refine ⟨hlen, hmain, fun hne => ?_⟩
  rw [hmain,
    zipWith_chooseText_of_ne_empty (extractDoc doc) _ hlen hne]

/-- Witness for C4 at a concrete document: two paragraphs, one blank node,
identity translation — all translated results are non-empty. -/
theorem translateDocx_positional_alignment_instance :
    (translateDocx echoOracle [["Hello"], ["", "World"]]).flatten
      = mergeBack ([["Hello"], ["", "World"]] : List (List String)).flatten
          (translateBatch echoOracle
            (extractDoc [["Hello"], ["", "World"]])).results :=
  (translateDocx_positional_alignment echoOracle
    [["Hello"], ["", "World"]]).2.2 (by decide)

/-- C10: in the write-back pass, a marked node whose aligned translated
string is empty keeps its original text while the position index still
advances: the written document is the positional merge of the original
document with the `chooseText` rule, and the merged value at position `k`
is the original extracted text whenever `tr[k]` is the empty string, with
every other marked position still aligned with its own translation. -/
theorem writeBack_empty_translation_guard (doc : List (List String))
    (tr : List String) (k : Nat)
    (hlen : tr.length = (extractDoc doc).length)
    (hk : tr[k]? = some "") :
    (writeBackDoc tr doc 0).1.flatten
      = mergeBack doc.flatten
          (List.zipWith chooseText (extractDoc doc) tr) ∧
    (List.zipWith chooseText (extractDoc doc) tr)[k]?
      = (extractDoc doc)[k]? := by
  constructor
  · have := writeBackDoc_fst tr doc 0
    simpa using this
  · have hklt : k < tr.length := by
      by_contra hge
      push_neg at hge
      rw [List.getElem?_eq_none hge] at hk
      exact Option.noConfusion hk
    have hke : k < (extractDoc doc).length := by omega
    have hkz : k < (List.zipWith chooseText (extractDoc doc) tr).length := by
      rw [List.length_zipWith]; omega
    have htrk : tr[k] = "" := by
      rw [List.getElem?_eq_getElem hklt] at hk
      exact Option.some.inj hk
    rw [List.getElem?_eq_getElem hkz, List.getElem?_eq_getElem hke,
      List.getElem_zipWith]
    simp [chooseText, htrk]

/-- Witness for C10 at a concrete document: the first translated entry is
empty, the second is not. -/
theorem writeBack_empty_translation_guard_instance :
    (writeBackDoc ["", "Monde"] [["Hello", " ", "World"]] 0).1.flatten
      = mergeBack ([["Hello", " ", "World"]] : List (List String)).flatten
          (List.zipWith chooseText (extractDoc [["Hello", " ", "World"]])
            ["", "Monde"]) ∧
    (List.zipWith chooseText (extractDoc [["Hello", " ", "World"]])
        ["", "Monde"])[0]?
      = (extractDoc [["Hello", " ", "World"]])[0]? :=
  writeBack_empty_translation_guard [["Hello", " ", "World"]] ["", "Monde"] 0
    (by decide) (by decide)

/-- The JS regex split `content.split(/\n\n+/)` of `translateMarkdown`:
scanning left to right, a greedy match of two or more newline characters
ends the current paragraph and the whole run is consumed; `acc` holds the
current paragraph's characters in reverse. -/
def splitParasAux : List Char → List Char → List String
  | [], acc => [acc.reverse.asString]
  | '\n' :: '\n' :: rest, acc =>
      acc.reverse.asString
        :: splitParasAux (rest.dropWhile (fun c => c == '\n')) []
  | c :: rest, acc => splitParasAux rest (c :: acc)
termination_by l _ => l.length
decreasing_by
  all_goals
    have h := (List.dropWhile_sublist (l := rest)
      (fun c : Char => c == '\n')).length_le
    simp only [List.length_cons]
    omega

/-- `content.split(/\n\n+/)` on a whole string. -/
def splitParas (content : String) : List String :=
  splitParasAux content.data []

/-- `translateMarkdown` from the document-processor module, on the text
level: split into paragraphs on runs of two or more newlines,
batch-translate them, and rejoin with exactly one double newline. -/
def translateMarkdown (oracle : String → Option String)
    (content : String) : String :=
  String.intercalate "\n\n" (translateBatch oracle (splitParas content)).results

/-- C5: `"A\n\nB\n\n\nC"` splits into exactly the three paragraph units
`["A", "B", "C"]`, and with the identity translation the rejoined output is
`"A\n\nB\n\nC"` — the run of three newlines is normalized to a double
newline. -/
theorem translateMarkdown_split_and_rejoin :
    splitParas "A\n\nB\n\n\nC" = ["A", "B", "C"] ∧
    translateMarkdown echoOracle "A\n\nB\n\n\nC" = "A\n\nB\n\nC" := by
  have hsplit : splitParas "A\n\nB\n\n\nC" = ["A", "B", "C"] := by
    show splitParasAux
      ('A' :: '\n' :: '\n' :: 'B' :: '\n' :: '\n' :: '\n' :: 'C' :: []) []
      = ["A", "B", "C"]
    simp [splitParasAux]
    decide
  refine ⟨hsplit, ?_⟩
  unfold translateMarkdown
  rw [hsplit]
  decide

/-- The page-break delimiter of `translatePdfPages`:
`'\n\n' + '-'.repeat(20) + ' Page Break ' + '-'.repeat(20) + '\n\n'`. -/
def pageBreakDelim : String :=
  "\n\n" ++ (List.replicate 20 '-').asString ++ " Page Break "
    ++ (List.replicate 20 '-').asString ++ "\n\n"

/-- `translatePdfPages` from the document-processor module, on the text
level: batch-translate the per-page texts and join the translated pages
with the page-break delimiter line into one plain-text artifact. -/
def translatePdfPages (oracle : String → Option String)
    (pages : List String) : String :=
  String.intercalate pageBreakDelim (translateBatch oracle pages).results

/-- C7: for every list of page texts, `translatePdfPages` resolves each
page independently, in page order, and outputs exactly the resolved pages
joined by the page-break delimiter; in particular a 2-page input under an
uppercasing stub yields the two uppercased pages separated by the
delimiter, in the original order. -/
theorem translatePdfPages_join :
    (∀ (oracle : String → Option String) (pages : List String),
      translatePdfPages oracle pages
        = String.intercalate pageBreakDelim
            (pages.map (resolveChunk oracle))) ∧
    translatePdfPages upperOracle ["hello world", "second page"]
      = "HELLO WORLD" ++ pageBreakDelim ++ "SECOND PAGE" := by
  constructor
  · intro oracle pages
    unfold translatePdfPages
    rw [translateBatch_results]
  · decide

/-- The JS `filename.split('.')` on the character level: splits at every
`'.'`, keeping empty segments, and always returns at least one segment
(`"".split('.')` is `[""]`), so `.pop()` is never undefined. -/
def splitOnDot : List Char → List (List Char)
  | [] => [[]]
  | c :: rest =>
    let r := splitOnDot rest
    if c = '.' then [] :: r
    else (c :: r.headD []) :: r.tail

/-- `filename.split('.').pop()!`: the last segment, i.e. the suffix after
the final dot (the whole name when there is no dot). -/
def extSeg (name : List Char) : List Char := (splitOnDot name).getLastD []

/-- `ext.toLowerCase()` on the character level (Lean's `String.toLower` is
defined through `String.mapAux`, which does not evaluate in the kernel). -/
def lowerSeg (seg : List Char) : String := (seg.map Char.toLower).asString

/-- `getFileType` from the document-parser module:
`filename.split('.').pop()?.toLowerCase()` compared against the known
extensions, defaulting to `'txt'`. -/
def getFileType (filename : String) : String :=
  let ext := lowerSeg (extSeg filename.data)
  if ext = "docx" then "docx"
  else if ext = "pdf" then "pdf"
  else if ext = "md" ∨ ext = "markdown" then "md"
  else "txt"

/-- The `ParsedDocument` shape of the document-parser module, restricted to
the fields the claims are about (`originalData`/`structure` carry the input
payloads, which the model already holds in `MockFile`). -/
structure ParsedDocument where
  type : String
  content : String
  pages : Option (List String)
deriving DecidableEq, Repr

/-- An uploaded file as the parser sees it: its name, its text content
(`file.text()`), the named parts of its archive when opened as a zip
(JSZip), and the per-page text the external PDF library extracts. -/
structure MockFile where
  name : String
  text : String
  parts : List (String × String)
  pdfPages : List String

/-- `zip.file(path)` over the modelled archive parts. -/
def zipLookup (parts : List (String × String)) (p : String) : Option String :=
  (parts.find? (fun kv => kv.1 == p)).map (fun kv => kv.2)

/-- `parseDocx` from the document-parser module: throws
`"Invalid DOCX file"` when the archive has no `word/document.xml` part,
otherwise returns a docx `ParsedDocument` with the placeholder content. -/
def parseDocx (parts : List (String × String)) :
    Except String ParsedDocument :=
  match zipLookup parts "word/document.xml" with
  | none => Except.error "Invalid DOCX file"
  | some _ => Except.ok ⟨"docx", "DOCX content loaded", none⟩

/-- `parsePdf` from the document-parser module, with the external PDF
library's per-page extraction given as input: the content is every page
text followed by a blank line, and the pages are kept individually. -/
def parsePdf (pages : List String) : Except String ParsedDocument :=
  Except.ok ⟨"pdf", String.join (pages.map (fun p => p ++ "\n\n")), some pages⟩

/-- `parseDocument` from the document-parser module: dispatch on
`getFileType`; anything that is not docx or pdf is read as text with the
file's entire content. -/
def parseDocument (f : MockFile) : Except String ParsedDocument :=
  let fileType := getFileType f.name
  if fileType = "docx" then parseDocx f.parts
  else if fileType = "pdf" then parsePdf f.pdfPages
  else Except.ok ⟨fileType, f.text, none⟩

/-- C8: `parseDocument` never rejects a file for its format: whenever the
lower-cased extension is none of docx/pdf/md/markdown the file is parsed as
plain text (`'txt'`) whose content is the entire file text, and the only
parse-time error at all is a DOCX archive missing its
`word/document.xml` part. -/
theorem parseDocument_no_unsupported_format (f : MockFile) :
    (lowerSeg (extSeg f.name.data) ∉
        (["docx", "pdf", "md", "markdown"] : List String) →
      parseDocument f = Except.ok ⟨"txt", f.text, none⟩) ∧
    ∀ e : String, parseDocument f = Except.error e →
      getFileType f.name = "docx" ∧
      zipLookup f.parts "word/document.xml" = none := by
  constructor
  · intro hno
    simp only [List.mem_cons, List.not_mem_nil, or_false, not_or] at hno
    obtain ⟨h1, h2, h3, h4⟩ := hno
    simp [parseDocument, getFileType, h1, h2, h3, h4]
  · intro e herr
    by_cases hdocx : getFileType f.name = "docx"
    · refine ⟨hdocx, ?_⟩
      rw [parseDocument] at herr
      simp only [hdocx, if_pos] at herr
      cases hz : zipLookup f.parts "word/document.xml" with
      | none => rfl
      | some v => rw [parseDocx, hz] at herr; simp at herr
    · exfalso
      rw [parseDocument] at herr
      simp only [hdocx, if_neg] at herr
      by_cases hpdf : getFileType f.name = "pdf"
      · rw [if_pos hpdf, parsePdf] at herr
        simp at herr
      · rw [if_neg hpdf] at herr
        simp at herr

/-- Witness for C8 at a concrete input: an unrecognized `.xyz` extension
falls back to plain text. -/
theorem parseDocument_no_unsupported_format_instance :
    parseDocument ⟨"a.xyz", "hello", [], []⟩
      = Except.ok ⟨"txt", "hello", none⟩ :=
  (parseDocument_no_unsupported_format ⟨"a.xyz", "hello", [], []⟩).1
    (by decide)

/-- JS `name.replace(pat, '')` for a string pattern: remove the first
(leftmost) occurrence of `pat`, leave the string unchanged when `pat` does
not occur. -/
def removeFirstOcc : List Char → List Char → List Char
  | [], _ => []
  | c :: rest, pat =>
    if pat.isPrefixOf (c :: rest) then (c :: rest).drop pat.length
    else c :: removeFirstOcc rest pat

/-- Whether `pat` occurs as a contiguous substring of `l` (the JS
`String.replace` match test). -/
def containsPat (l pat : List Char) : Bool :=
  match l with
  | [] => pat.isEmpty
  | c :: rest => pat.isPrefixOf (c :: rest) || containsPat rest pat

/-- The suggested download filename built by `downloadFile` in the page
component: `ext = name.split('.').pop()`, overridden to `'txt'` when the
file's MIME type is `application/pdf`, then
`translated_` + `name.replace('.' + ext, '')` + `.` + `ext` (JS
`String.replace` with a string pattern removes only the first
occurrence). -/
def downloadName (name : String) (mime : String) : String :=
  let ext : List Char :=
    if mime = "application/pdf" then "txt".data else extSeg name.data
  "translated_" ++ (removeFirstOcc name.data ('.' :: ext)).asString
    ++ "." ++ ext.asString

/-- C9 counterexample: for a PDF named `report.pdf` the suggested filename
is `translated_report.pdf.txt` — the forced `txt` extension makes the
`replace` a no-op, so the whole original name including `.pdf` is kept —
not `translated_report.txt` as `translated_<stem>.<ext>` would give. -/
theorem downloadName_pdf_cex :
    downloadName "report.pdf" "application/pdf"
        = "translated_report.pdf.txt" ∧
    downloadName "report.pdf" "application/pdf"
        ≠ "translated_report.txt" := by
  decide

theorem isPrefixOf_self : ∀ l : List Char, l.isPrefixOf l = true := by
  intro l
  induction l with
  | nil => rfl
  | cons c rest ih => simp [List.isPrefixOf, ih]

theorem removeFirstOcc_not_contained :
    ∀ l pat : List Char, containsPat l pat = false →
      removeFirstOcc l pat = l := by
  intro l pat
  induction l with
  | nil => intro _; rfl
  | cons c rest ih =>
    intro h
    rw [containsPat] at h
    rcases Bool.or_eq_false_iff.mp h with ⟨h1, h2⟩
    rw [removeFirstOcc, if_neg (by simp [h1]), ih h2]

theorem removeFirstOcc_stem :
    ∀ (a b : List Char), '.' ∉ a →
      removeFirstOcc (a ++ '.' :: b) ('.' :: b) = a := by
  intro a b
  induction a with
  | nil =>
    intro _
    rw [List.nil_append, removeFirstOcc, if_pos (isPrefixOf_self _),
      List.drop_length]
  | cons c a' ih =>
    intro hno
    have hc : c ≠ '.' := fun hc => hno (hc ▸ List.mem_cons_self c a')
    have hpre : (('.' :: b).isPrefixOf (c :: (a' ++ '.' :: b))) = false := by
      simp [List.isPrefixOf]
      intro hcontra
      exact absurd hcontra.symm hc
    rw [List.cons_append, removeFirstOcc, if_neg (by simp [hpre]),
      ih (fun hmem => hno (List.mem_cons_of_mem c hmem))]

theorem splitOnDot_dotfree :
    ∀ b : List Char, '.' ∉ b → splitOnDot b = [b] := by
  intro b
  induction b with
  | nil => intro _; rfl
  | cons c b' ih =>
    intro hno
    have hc : c ≠ '.' := fun hc => hno (hc ▸ List.mem_cons_self c b')
    have hb' : '.' ∉ b' := fun hmem => hno (List.mem_cons_of_mem c hmem)
    simp [splitOnDot, hc, ih hb']

theorem splitOnDot_append :
    ∀ (a b : List Char), '.' ∉ a →
      splitOnDot (a ++ '.' :: b) = a :: splitOnDot b := by
  intro a b
  induction a with
  | nil => intro _; simp [splitOnDot]
  | cons c a' ih =>
    intro hno
    have hc : c ≠ '.' := fun hc => hno (hc ▸ List.mem_cons_self c a')
    have ha' : '.' ∉ a' := fun hmem => hno (List.mem_cons_of_mem c hmem)
    simp [splitOnDot, hc, ih ha']

theorem extSeg_append (a b : List Char) (ha : '.' ∉ a) (hb : '.' ∉ b) :
    extSeg (a ++ '.' :: b) = b := by
  rw [extSeg, splitOnDot_append a b ha, splitOnDot_dotfree b hb]
  simp [List.getLastD]

/-- C9 amended: the suggested filename is `translated_` followed by the
original name with the FIRST occurrence of `.` + ext removed, then `.` +
ext, where ext is the text after the last dot of the name, forced to `txt`
for PDF MIME types.  Consequently, for a non-PDF file named `stem.ext`
whose only dot is the separator, this equals `translated_<stem>.<ext>`;
for a PDF input whose name does not contain `.txt`, the `txt` extension is
appended to the full original name — the `.pdf` suffix is retained, so a
PDF `stem.pdf` downloads as `translated_<stem>.pdf.txt`. -/
theorem downloadName_characterization :
    (∀ (mime : String) (stem ext : List Char), mime ≠ "application/pdf" →
      '.' ∉ stem → '.' ∉ ext →
      downloadName (stem ++ '.' :: ext).asString mime
        = "translated_" ++ stem.asString ++ "." ++ ext.asString) ∧
    (∀ name : List Char,
      containsPat name ('.' :: "txt".data) = false →
      downloadName name.asString "application/pdf"
        = "translated_" ++ name.asString ++ "." ++ "txt") := by
  constructor
  · intro mime stem ext hmime hstem hext
    have hdata : ((stem ++ '.' :: ext).asString).data = stem ++ '.' :: ext :=
      rfl
    rw [downloadName]
    simp only [hdata, if_neg hmime, extSeg_append stem ext hstem hext,
      removeFirstOcc_stem stem ext hstem]
  · intro name hnotxt
    show "translated_"
        ++ (removeFirstOcc (name.asString).data ('.' :: "txt".data)).asString
        ++ "." ++ ("txt".data).asString
      = "translated_" ++ name.asString ++ "." ++ "txt"
    have hdata : (name.asString).data = name := rfl
    rw [hdata, removeFirstOcc_not_contained name _ hnotxt]
    rfl

/-- Witness for C9's amended statement at concrete inputs: a Markdown file
`report.md` and a PDF `report.pdf`. -/
theorem downloadName_characterization_instance :
    downloadName ("report".data ++ '.' :: "md".data).asString "text/plain"
        = "translated_" ++ "report".data.asString ++ "." ++ "md".data.asString
    ∧ downloadName "report.pdf".data.asString "application/pdf"
        = "translated_" ++ "report.pdf".data.asString ++ "." ++ "txt" :=
  ⟨downloadName_characterization.1 "text/plain" "report".data "md".data
      (by decide) (by decide) (by decide),
    downloadName_characterization.2 "report.pdf".data (by decide)⟩
